import Mathlib

/-!
Verification development for the groupcache repository.

The Go source is shallowly embedded: Go maps become association lists with
overwrite-on-insert semantics, Go slices become explicit (array id, offset,
length, capacity) records over an explicit heap of byte arrays, and the
concurrent singleflight code becomes a small-step transition relation over
interleaved thread states.
-/

set_option autoImplicit false

namespace Groupcache

universe u v

/-! ### Go maps, modelled as association lists

A Go map assignment overwrites the entry for an existing key and appends a
fresh entry otherwise; a read of a missing key yields the zero value, which
callers here model with Option plus getD.
-/

/-- Read m[k] from a Go map: some value, or none when the key is absent. -/
def goLookup {α : Type u} {β : Type v} [DecidableEq α] (k : α) :
    List (α × β) → Option β
  | [] => none
  | (ka, va) :: rest => if ka = k then some va else goLookup k rest

/-- The Go map assignment m[k] = v: overwrite when present, append when absent. -/
def goInsert {α : Type u} {β : Type v} [DecidableEq α]
    (m : List (α × β)) (k : α) (v : β) : List (α × β) :=
  match m with
  | [] => [(k, v)]
  | (ka, va) :: rest =>
    if ka = k then (k, v) :: rest else (ka, va) :: goInsert rest k v

/-- The Go builtin delete(m, k): removes the entry for k. -/
def goErase {α : Type u} {β : Type v} [DecidableEq α]
    (m : List (α × β)) (k : α) : List (α × β) :=
  match m with
  | [] => []
  | (ka, va) :: rest =>
    if ka = k then goErase rest k else (ka, va) :: goErase rest k

@[simp] theorem goLookup_goInsert_self {α : Type u} {β : Type v} [DecidableEq α]
    (m : List (α × β)) (k : α) (v : β) :
    goLookup k (goInsert m k v) = some v := by
  induction m with
  | nil => simp [goInsert, goLookup]
  | cons hd tl ih =>
    obtain ⟨ka, va⟩ := hd
    by_cases h : ka = k <;> simp [goInsert, goLookup, h, ih]

theorem goLookup_goInsert_ne {α : Type u} {β : Type v} [DecidableEq α]
    (m : List (α × β)) (k k' : α) (v : β) (h : k' ≠ k) :
    goLookup k' (goInsert m k v) = goLookup k' m := by
  induction m with
  | nil => simp [goInsert, goLookup, Ne.symm h]
  | cons hd tl ih =>
    obtain ⟨ka, va⟩ := hd
    by_cases hk : ka = k
    · subst hk
      simp [goInsert, goLookup, Ne.symm h, h]
    · by_cases hk' : ka = k' <;> simp [goInsert, goLookup, hk, hk', ih, h]

@[simp] theorem goLookup_goErase_self {α : Type u} {β : Type v} [DecidableEq α]
    (m : List (α × β)) (k : α) :
    goLookup k (goErase m k) = none := by
  induction m with
  | nil => simp [goErase, goLookup]
  | cons hd tl ih =>
    obtain ⟨ka, va⟩ := hd
    by_cases h : ka = k <;> simp [goErase, goLookup, h, ih]

theorem goLookup_goErase_ne {α : Type u} {β : Type v} [DecidableEq α]
    (m : List (α × β)) (k k' : α) (h : k' ≠ k) :
    goLookup k' (goErase m k) = goLookup k' m := by
  induction m with
  | nil => simp [goErase, goLookup]
  | cons hd tl ih =>
    obtain ⟨ka, va⟩ := hd
    by_cases hk : ka = k
    · subst hk
      simp [goErase, goLookup, Ne.symm h, h, ih]
    · by_cases hk' : ka = k' <;> simp [goErase, goLookup, hk, hk', ih, h]

/-! ### List.findIdx characterization

Go's sort.Search returns the least index at which the (monotone) predicate
holds, or the length when it never holds.  The ring code only calls it with
the monotone predicate keys[i] >= hash over the ascending-sorted keys, where
the least-index semantics coincides with scanning from the left, i.e. with
List.findIdx.
-/

theorem findIdx_le_length {α : Type u} (p : α → Bool) (l : List α) :
    l.findIdx p ≤ l.length := by
  induction l with
  | nil => simp
  | cons hd tl ih =>
    by_cases h : p hd <;> simp [List.findIdx_cons, h, Nat.succ_le_succ ih]

theorem findIdx_eq_length_iff {α : Type u} (p : α → Bool) (l : List α) :
    l.findIdx p = l.length ↔ ∀ x ∈ l, p x = false := by
  induction l with
  | nil => simp
  | cons hd tl ih =>
    by_cases h : p hd
    · simp [List.findIdx_cons, h]
    · simp only [List.findIdx_cons, h, cond_false, List.length_cons,
        List.mem_cons]
      constructor
      · intro hh x hx
        rcases hx with hx | hx
        · subst hx; simpa using h
        · exact (ih.mp (Nat.succ_injective hh)) x hx
      · intro hh
        have : tl.findIdx p = tl.length := ih.mpr fun x hx => hh x (Or.inr hx)
        omega

theorem findIdx_spec_found {α : Type u} (p : α → Bool) (l : List α) (d : α)
    (h : l.findIdx p < l.length) :
    p (l.getD (l.findIdx p) d) = true ∧
      ∀ j, j < l.findIdx p → p (l.getD j d) = false := by
  induction l with
  | nil => simp at h
  | cons hd tl ih =>
    by_cases hp : p hd
    · simp [List.findIdx_cons, hp]
    · simp only [List.findIdx_cons, hp, cond_false, List.length_cons,
        Nat.add_lt_add_iff_right] at h
      have := ih h
      refine ⟨by simpa [List.findIdx_cons, hp] using this.1, ?_⟩
      intro j hj
      match j with
      | 0 => simpa using hp
      | j + 1 =>
        simp only [List.findIdx_cons, hp, cond_false] at hj
        simpa using this.2 j (by omega)

/-! ### consistenthash/consistenthash.go

Hash values are int(m.hash(...)) where the hash returns a uint32; every
value is a nonnegative int, so Nat carries them faithfully (no comparison
or arithmetic in the file can overflow or go negative).  sort.Ints sorts
ascending; since the elements are plain numbers, any correct sort gives the
same list, here List.insertionSort.
-/

namespace CH

/-- State of consistenthash.Map: replica count, hash function, the sorted
ring of virtual-node hash values (keys), and the hash-to-peer map. -/
structure HMap where
  replicas : Nat
  hash : String → Nat
  keys : List Nat
  hashMap : List (Nat × String)

/-- consistenthash.New with an explicit hash function (New substitutes
crc32.ChecksumIEEE when fn is nil; the claims quantify over the function). -/
def chNew (replicas : Nat) (hash : String → Nat) : HMap :=
  { replicas := replicas, hash := hash, keys := [], hashMap := [] }

/-- Map.IsEmpty: len(m.keys) == 0. -/
def chIsEmpty (m : HMap) : Bool := m.keys.length == 0

/-- One iteration of the virtual-node loop in Map.Add: append
hash(strconv.Itoa(i) + key) to keys and set hashMap[hash] = key. -/
def addStep (key : String) (acc : HMap) (i : Nat) : HMap :=
  let h := acc.hash (toString i ++ key)
  { acc with
    keys := acc.keys ++ [h]
    hashMap := goInsert acc.hashMap h key }

/-- The inner loop of Map.Add for a single peer key: for i in [0, replicas). -/
def addPeer (m : HMap) (key : String) : HMap :=
  (List.range m.replicas).foldl (addStep key) m

/-- Map.Add(keys...): run the per-peer loop over every key, then sort the
ring ascending (sort.Ints). -/
def chAdd (m : HMap) (ks : List String) : HMap :=
  let m1 := ks.foldl addPeer m
  { m1 with keys := List.insertionSort (· ≤ ·) m1.keys }

/-- Map.Get: empty ring yields ""; otherwise binary-search (sort.Search,
least index with keys[i] >= hash, which over the sorted ring equals the
leftmost scan List.findIdx), wrap to 0 when the search returns len(keys),
and read the owner out of hashMap (a missing key reads Go's zero value ""). -/
def chGet (m : HMap) (key : String) : String :=
  if chIsEmpty m then ""
  else
    let h := m.hash key
    let idx := m.keys.findIdx (fun x => decide (h ≤ x))
    let idx1 := if idx = m.keys.length then 0 else idx
    (goLookup (m.keys.getD idx1 0) m.hashMap).getD ""

/-- The hash values of the virtual nodes contributed by one peer. -/
def virtualHashes (replicas : Nat) (hash : String → Nat) (key : String) :
    List Nat :=
  (List.range replicas).map fun i => hash (toString i ++ key)

theorem foldl_addStep_replicas (k : String) (l : List Nat) (m : HMap) :
    (l.foldl (addStep k) m).replicas = m.replicas := by
  induction l generalizing m with
  | nil => rfl
  | cons hd tl ih => simpa [addStep] using ih _

theorem foldl_addStep_hash (k : String) (l : List Nat) (m : HMap) :
    (l.foldl (addStep k) m).hash = m.hash := by
  induction l generalizing m with
  | nil => rfl
  | cons hd tl ih => simpa [addStep] using ih _

@[simp] theorem addPeer_replicas (m : HMap) (k : String) :
    (addPeer m k).replicas = m.replicas :=
  foldl_addStep_replicas k _ m

@[simp] theorem addPeer_hash (m : HMap) (k : String) :
    (addPeer m k).hash = m.hash :=
  foldl_addStep_hash k _ m

theorem getD_mem_of_lt {l : List Nat} {i : Nat} (d : Nat) (h : i < l.length) :
    l.getD i d ∈ l := by
  rw [List.getD_eq_getElem l d h]
  exact List.getElem_mem h

/-- Sequential Go-map assignment of a whole list of (key, value) pairs. -/
def insertAll (m : List (Nat × String)) (ps : List (Nat × String)) :
    List (Nat × String) :=
  ps.foldl (fun acc kv => goInsert acc kv.1 kv.2) m

/-- The (hash, peer) pairs written into hashMap by one peer's Add loop. -/
def peerPairs (replicas : Nat) (hash : String → Nat) (key : String) :
    List (Nat × String) :=
  (List.range replicas).map fun i => (hash (toString i ++ key), key)

/-- The ring value that Get's binary search selects for a key (the keys[idx]
the final map read uses). -/
def selectedHash (m : HMap) (key : String) : Nat :=
  m.keys.getD
    (if m.keys.findIdx (fun x => decide (m.hash key ≤ x)) = m.keys.length
      then 0
      else m.keys.findIdx (fun x => decide (m.hash key ≤ x)))
    0

theorem chGet_eq_selected (m : HMap) (key : String) :
    chGet m key =
      if chIsEmpty m then ""
      else (goLookup (selectedHash m key) m.hashMap).getD "" := rfl

@[simp] theorem insertAll_nil (m : List (Nat × String)) : insertAll m [] = m := rfl

@[simp] theorem insertAll_cons (m : List (Nat × String)) (kv : Nat × String)
    (ps : List (Nat × String)) :
    insertAll m (kv :: ps) = insertAll (goInsert m kv.1 kv.2) ps := rfl

theorem insertAll_append (m : List (Nat × String))
    (ps qs : List (Nat × String)) :
    insertAll m (ps ++ qs) = insertAll (insertAll m ps) qs := by
  simp [insertAll, List.foldl_append]

theorem goLookup_insertAll_absent (m : List (Nat × String)) (k : Nat)
    (ps : List (Nat × String)) (h : ∀ kv ∈ ps, kv.1 ≠ k) :
    goLookup k (insertAll m ps) = goLookup k m := by
  induction ps generalizing m with
  | nil => rfl
  | cons hd tl ih =>
    rw [insertAll_cons, ih _ fun kv hkv => h kv (List.mem_cons_of_mem _ hkv),
      goLookup_goInsert_ne _ _ _ _ (Ne.symm (h hd (List.mem_cons_self _ _)))]

theorem goLookup_insertAll_const (m : List (Nat × String)) (k : Nat) (v : String)
    (ps : List (Nat × String))
    (hconst : ∀ kv ∈ ps, kv.1 = k → kv.2 = v)
    (hmem : ∃ kv ∈ ps, kv.1 = k) :
    goLookup k (insertAll m ps) = some v := by
  induction ps generalizing m with
  | nil => simp at hmem
  | cons hd tl ih =>
    by_cases hex : ∃ kv ∈ tl, kv.1 = k
    · exact ih _ (fun kv hkv => hconst kv (List.mem_cons_of_mem _ hkv)) hex
    · obtain ⟨kv, hkv, hk⟩ := hmem
      rcases List.mem_cons.mp hkv with rfl | htl
      · have hv : kv.2 = v := hconst kv (List.mem_cons_self _ _) hk
        rw [insertAll_cons,
          goLookup_insertAll_absent _ _ _
            (fun kv' hkv' hk' => hex ⟨kv', hkv', hk'⟩),
          hk, hv, goLookup_goInsert_self]
      · exact absurd ⟨kv, htl, hk⟩ hex

theorem foldl_addStep_keys (k : String) (l : List Nat) (m : HMap) :
    (l.foldl (addStep k) m).keys =
      m.keys ++ l.map fun i => m.hash (toString i ++ k) := by
  induction l generalizing m with
  | nil => simp
  | cons hd tl ih =>
    rw [List.foldl_cons, ih]
    simp [addStep, foldl_addStep_hash]

theorem foldl_addStep_hashMap (k : String) (l : List Nat) (m : HMap) :
    (l.foldl (addStep k) m).hashMap =
      insertAll m.hashMap (l.map fun i => (m.hash (toString i ++ k), k)) := by
  induction l generalizing m with
  | nil => simp
  | cons hd tl ih =>
    rw [List.foldl_cons, ih]
    simp [addStep]

theorem addPeer_keys (m : HMap) (k : String) :
    (addPeer m k).keys = m.keys ++ virtualHashes m.replicas m.hash k :=
  foldl_addStep_keys k _ m

theorem addPeer_hashMap (m : HMap) (k : String) :
    (addPeer m k).hashMap =
      insertAll m.hashMap (peerPairs m.replicas m.hash k) :=
  foldl_addStep_hashMap k _ m

theorem foldl_addPeer_replicas (ks : List String) (m : HMap) :
    (ks.foldl addPeer m).replicas = m.replicas := by
  induction ks generalizing m with
  | nil => rfl
  | cons hd tl ih => rw [List.foldl_cons, ih, addPeer_replicas]

theorem foldl_addPeer_hash (ks : List String) (m : HMap) :
    (ks.foldl addPeer m).hash = m.hash := by
  induction ks generalizing m with
  | nil => rfl
  | cons hd tl ih => rw [List.foldl_cons, ih, addPeer_hash]

theorem foldl_addPeer_keys (ks : List String) (m : HMap) :
    (ks.foldl addPeer m).keys =
      m.keys ++ ks.flatMap (virtualHashes m.replicas m.hash) := by
  induction ks generalizing m with
  | nil => simp
  | cons hd tl ih =>
    rw [List.foldl_cons, ih, addPeer_keys]
    simp [addPeer_replicas, addPeer_hash, List.flatMap_cons, List.append_assoc]

theorem foldl_addPeer_hashMap (ks : List String) (m : HMap) :
    (ks.foldl addPeer m).hashMap =
      insertAll m.hashMap (ks.flatMap (peerPairs m.replicas m.hash)) := by
  induction ks generalizing m with
  | nil => simp
  | cons hd tl ih =>
    rw [List.foldl_cons, ih, addPeer_hashMap]
    simp [addPeer_replicas, addPeer_hash, List.flatMap_cons, insertAll_append]

@[simp] theorem chAdd_replicas (m : HMap) (ks : List String) :
    (chAdd m ks).replicas = m.replicas :=
  foldl_addPeer_replicas ks m

@[simp] theorem chAdd_hash (m : HMap) (ks : List String) :
    (chAdd m ks).hash = m.hash :=
  foldl_addPeer_hash ks m

theorem chAdd_hashMap (m : HMap) (ks : List String) :
    (chAdd m ks).hashMap =
      insertAll m.hashMap (ks.flatMap (peerPairs m.replicas m.hash)) :=
  foldl_addPeer_hashMap ks m

theorem chAdd_keys_perm (m : HMap) (ks : List String) :
    List.Perm (chAdd m ks).keys
      (m.keys ++ ks.flatMap (virtualHashes m.replicas m.hash)) := by
  unfold chAdd
  refine (List.perm_insertionSort _ _).trans ?_
  rw [foldl_addPeer_keys]

theorem chAdd_keys_sorted (m : HMap) (ks : List String) :
    (chAdd m ks).keys.Sorted (· ≤ ·) :=
  List.sorted_insertionSort _ _

theorem chAdd_keys_length (m : HMap) (ks : List String) :
    (chAdd m ks).keys.length =
      m.keys.length
        + (ks.flatMap (virtualHashes m.replicas m.hash)).length := by
  have := (chAdd_keys_perm m ks).length_eq
  simpa using this

theorem mem_peerPairs {replicas : Nat} {hash : String → Nat} {key : String}
    {kv : Nat × String} (h : kv ∈ peerPairs replicas hash key) :
    ∃ i, i < replicas ∧ kv = (hash (toString i ++ key), key) := by
  obtain ⟨i, hi, rfl⟩ := List.mem_map.mp h
  exact ⟨i, List.mem_range.mp hi, rfl⟩

/-- A whole sequence of Add calls applied to a fresh ring New(replicas, fn). -/
def buildRing (replicas : Nat) (hash : String → Nat)
    (seqs : List (List String)) : HMap :=
  seqs.foldl chAdd (chNew replicas hash)

theorem foldl_chAdd_replicas (seqs : List (List String)) (m : HMap) :
    (seqs.foldl chAdd m).replicas = m.replicas := by
  induction seqs generalizing m with
  | nil => rfl
  | cons hd tl ih => rw [List.foldl_cons, ih, chAdd_replicas]

theorem foldl_chAdd_hash (seqs : List (List String)) (m : HMap) :
    (seqs.foldl chAdd m).hash = m.hash := by
  induction seqs generalizing m with
  | nil => rfl
  | cons hd tl ih => rw [List.foldl_cons, ih, chAdd_hash]

theorem foldl_chAdd_keys_perm (seqs : List (List String)) (m : HMap) :
    List.Perm (seqs.foldl chAdd m).keys
      (m.keys ++ seqs.flatten.flatMap (virtualHashes m.replicas m.hash)) := by
  induction seqs generalizing m with
  | nil => simp
  | cons hd tl ih =>
    rw [List.foldl_cons]
    refine (ih (chAdd m hd)).trans ?_
    rw [chAdd_replicas, chAdd_hash, List.flatten_cons, List.flatMap_append]
    refine ((chAdd_keys_perm m hd).append_right _).trans ?_
    rw [List.append_assoc]

theorem foldl_chAdd_hashMap (seqs : List (List String)) (m : HMap) :
    (seqs.foldl chAdd m).hashMap =
      insertAll m.hashMap
        (seqs.flatten.flatMap (peerPairs m.replicas m.hash)) := by
  induction seqs generalizing m with
  | nil => simp
  | cons hd tl ih =>
    rw [List.foldl_cons, ih, chAdd_replicas, chAdd_hash, chAdd_hashMap,
      List.flatten_cons, List.flatMap_append, insertAll_append]

theorem foldl_chAdd_sorted (seqs : List (List String)) (m : HMap)
    (hm : m.keys.Sorted (· ≤ ·)) :
    (seqs.foldl chAdd m).keys.Sorted (· ≤ ·) := by
  induction seqs generalizing m with
  | nil => exact hm
  | cons hd tl ih => exact ih (chAdd m hd) (chAdd_keys_sorted m hd)

theorem buildRing_keys_eq (replicas : Nat) (hash : String → Nat)
    (seqs1 seqs2 : List (List String))
    (hperm : List.Perm seqs1.flatten seqs2.flatten) :
    (buildRing replicas hash seqs1).keys =
      (buildRing replicas hash seqs2).keys := by
  apply List.eq_of_perm_of_sorted (r := (· ≤ ·))
  · refine (foldl_chAdd_keys_perm seqs1 (chNew replicas hash)).trans
      (List.Perm.trans ?_ (foldl_chAdd_keys_perm seqs2 (chNew replicas hash)).symm)
    exact hperm.flatMap_right _
  · exact foldl_chAdd_sorted _ _ List.sorted_nil
  · exact foldl_chAdd_sorted _ _ List.sorted_nil

theorem selectedHash_mem (m : HMap) (k : String)
    (hne : chIsEmpty m = false) : selectedHash m k ∈ m.keys := by
  have hlen : 0 < m.keys.length := by
    simp only [chIsEmpty, beq_eq_false_iff_ne, ne_eq] at hne
    omega
  unfold selectedHash
  by_cases h :
      m.keys.findIdx (fun x => decide (m.hash k ≤ x)) = m.keys.length
  · rw [if_pos h]
    exact getD_mem_of_lt 0 hlen
  · rw [if_neg h]
    have := findIdx_le_length (fun x => decide (m.hash k ≤ x)) m.keys
    exact getD_mem_of_lt 0 (by omega)

theorem selectedHash_congr (m1 m2 : HMap) (k : String)
    (hh : m1.hash = m2.hash) (hk : m1.keys = m2.keys) :
    selectedHash m1 k = selectedHash m2 k := by
  unfold selectedHash
  rw [hh, hk]

end CH

/-- C5: for a non-empty ring, Get(key) computes h = hash(key), selects the
least index idx with ring[idx] >= h, wraps idx to 0 when no index qualifies,
and returns the owner recorded for ring[idx] (Go zero value "" when the
owner map has no entry); for an empty ring Get returns "". -/
theorem consistenthash_get_binary_search (m : CH.HMap) (key : String) :
    (CH.chIsEmpty m = true → CH.chGet m key = "") ∧
    (CH.chIsEmpty m = false →
      ((∃ i, i < m.keys.length ∧ m.hash key ≤ m.keys.getD i 0) →
        ∃ i, i < m.keys.length ∧ m.hash key ≤ m.keys.getD i 0 ∧
          (∀ j, j < i → m.keys.getD j 0 < m.hash key) ∧
          CH.chGet m key = (goLookup (m.keys.getD i 0) m.hashMap).getD "") ∧
      ((∀ i, i < m.keys.length → m.keys.getD i 0 < m.hash key) →
        CH.chGet m key = (goLookup (m.keys.getD 0 0) m.hashMap).getD "")) := by
  constructor
  · intro h
    simp [CH.chGet, h]
  · intro hne
    set p : Nat → Bool := fun x => decide (m.hash key ≤ x) with hp
    constructor
    · rintro ⟨i, hi, hle⟩
      have hfound : m.keys.findIdx p < m.keys.length := by
        rcases Nat.lt_or_ge (m.keys.findIdx p) m.keys.length with h | h
        · exact h
        · exfalso
          have heq : m.keys.findIdx p = m.keys.length :=
            Nat.le_antisymm (findIdx_le_length p m.keys) h
          have hall := (findIdx_eq_length_iff p m.keys).mp heq
          have := hall (m.keys.getD i 0) (CH.getD_mem_of_lt 0 hi)
          simp only [hp, decide_eq_false_iff_not, Nat.not_le] at this
          omega
      obtain ⟨hpi, hprev⟩ := findIdx_spec_found p m.keys 0 hfound
      simp only [hp, decide_eq_true_eq] at hpi
      refine ⟨m.keys.findIdx p, hfound, hpi, ?_, ?_⟩
      · intro j hj
        have := hprev j hj
        simp only [hp, decide_eq_false_iff_not, Nat.not_le] at this
        exact this
      · simp only [CH.chGet, hne, Bool.false_eq_true, if_false]
        rw [← hp]
        rw [if_neg (by omega)]
    · intro hall
      have heq : m.keys.findIdx p = m.keys.length := by
        apply (findIdx_eq_length_iff p m.keys).mpr
        intro x hx
        obtain ⟨i, hi, rfl⟩ := List.mem_iff_getElem.mp hx
        have := hall i hi
        rw [List.getD_eq_getElem m.keys 0 hi] at this
        simp only [hp, decide_eq_false_iff_not, Nat.not_le]
        exact this
      simp only [CH.chGet, hne, Bool.false_eq_true, if_false]
      rw [← hp, if_pos heq]

/-- A tiny concrete ring used to instantiate the Get characterization:
one replica, hash = byte length of the input string, single peer "A". -/
def chSample : CH.HMap :=
  CH.chAdd (CH.chNew 1 fun s => s.length) ["A"]

theorem consistenthash_get_binary_search_witness :
    CH.chGet chSample "x" =
      (goLookup (chSample.keys.getD 0 0) chSample.hashMap).getD "" := by
  obtain ⟨i, hi, hle, hprev, heq⟩ :=
    ((consistenthash_get_binary_search chSample "x").2 (by decide)).1
      ⟨0, by decide, by decide⟩
  have hi0 : i = 0 := by
    have : chSample.keys.length = 1 := by decide
    omega
  rw [hi0] at heq
  exact heq

/-- C3 counterexample: one replica, constant hash.  Add("A", "B") makes the
virtual nodes of the two peers collide; the hashMap assignment overwrites,
so Get returns "B", the peer added last — not the first-added peer "A" the
claim promises. -/
theorem consistenthash_first_writer_counterexample :
    CH.chGet (CH.chAdd (CH.chNew 1 fun _ => 42) ["A", "B"]) "x" = "B" ∧
      CH.chGet (CH.chAdd (CH.chNew 1 fun _ => 42) ["A", "B"]) "x" ≠ "A" := by
  refine ⟨?_, ?_⟩ <;> decide

/-- C3 amended: on a hash collision between virtual nodes of different peers
the LAST written association wins: after Add(a, b), a Get whose binary search
selects a hash value produced by one of b's virtual nodes returns b (the
most recently added colliding peer), even when that value also belongs to a
virtual node of a.  (Equal hash values all stay in the sorted ring; for a
ring of plain integers a stable and an unstable sort are indistinguishable.) -/
theorem consistenthash_collision_last_writer (r : Nat) (hash : String → Nat)
    (a b k : String) (hr : 0 < r) (i : Nat) (hi : i < r)
    (hsel : CH.selectedHash (CH.chAdd (CH.chNew r hash) [a, b]) k
      = hash (toString i ++ b)) :
    CH.chGet (CH.chAdd (CH.chNew r hash) [a, b]) k = b := by
  have hlen : (CH.chAdd (CH.chNew r hash) [a, b]).keys.length = r + r := by
    rw [CH.chAdd_keys_length]
    simp [CH.chNew, CH.virtualHashes]
  have hne : CH.chIsEmpty (CH.chAdd (CH.chNew r hash) [a, b]) = false := by
    simp only [CH.chIsEmpty, hlen]
    simp only [beq_eq_false_iff_ne, ne_eq]
    omega
  rw [CH.chGet_eq_selected, hne]
  simp only [Bool.false_eq_true, if_false, hsel]
  have hmap : (CH.chAdd (CH.chNew r hash) [a, b]).hashMap
      = CH.insertAll [] ([a, b].flatMap (CH.peerPairs r hash)) :=
    CH.chAdd_hashMap (CH.chNew r hash) [a, b]
  rw [hmap]
  have hsplit : ([a, b] : List String).flatMap (CH.peerPairs r hash)
      = CH.peerPairs r hash a ++ CH.peerPairs r hash b := by
    simp [List.flatMap_cons]
  rw [hsplit, CH.insertAll_append]
  have hlook : goLookup (hash (toString i ++ b))
      (CH.insertAll (CH.insertAll [] (CH.peerPairs r hash a))
        (CH.peerPairs r hash b)) = some b :=
    CH.goLookup_insertAll_const _ (hash (toString i ++ b)) b _
      (fun kv hkv _ => by
        obtain ⟨i', hi', rfl⟩ := CH.mem_peerPairs hkv
        rfl)
      ⟨(hash (toString i ++ b), b),
        List.mem_map.mpr ⟨i, List.mem_range.mpr hi, rfl⟩, rfl⟩
  rw [hlook]
  rfl

theorem consistenthash_collision_last_writer_witness :
    CH.chGet (CH.chAdd (CH.chNew 1 fun _ => 42) ["A", "B"]) "x" = "B" :=
  consistenthash_collision_last_writer 1 (fun _ => 42) "A" "B" "x"
    (by decide) 0 (by decide) (by decide)

/-- C6: for two sequences of Add calls that insert the same multiset of
peers into fresh rings with the same replica count and hash function, and a
hash function with no collisions among the inserted virtual nodes, Get
returns the same peer on both rings for every key. -/
theorem consistenthash_order_independent (replicas : Nat)
    (hash : String → Nat) (seqs1 seqs2 : List (List String))
    (hperm : List.Perm seqs1.flatten seqs2.flatten)
    (hinj : ∀ i j p q, i < replicas → j < replicas →
      p ∈ seqs1.flatten → q ∈ seqs1.flatten →
      hash (toString i ++ p) = hash (toString j ++ q) → i = j ∧ p = q)
    (k : String) :
    CH.chGet (CH.buildRing replicas hash seqs1) k =
      CH.chGet (CH.buildRing replicas hash seqs2) k := by
  have hh1 : (CH.buildRing replicas hash seqs1).hash = hash :=
    CH.foldl_chAdd_hash _ _
  have hh2 : (CH.buildRing replicas hash seqs2).hash = hash :=
    CH.foldl_chAdd_hash _ _
  have hkeys : (CH.buildRing replicas hash seqs1).keys
      = (CH.buildRing replicas hash seqs2).keys :=
    CH.buildRing_keys_eq _ _ _ _ hperm
  have hempty : CH.chIsEmpty (CH.buildRing replicas hash seqs1)
      = CH.chIsEmpty (CH.buildRing replicas hash seqs2) := by
    unfold CH.chIsEmpty
    rw [hkeys]
  rw [CH.chGet_eq_selected, CH.chGet_eq_selected, hempty]
  rcases hcb : CH.chIsEmpty (CH.buildRing replicas hash seqs2) with _ | _
  · simp only [Bool.false_eq_true, if_false]
    have hsel : CH.selectedHash (CH.buildRing replicas hash seqs1) k
        = CH.selectedHash (CH.buildRing replicas hash seqs2) k :=
      CH.selectedHash_congr _ _ _ (hh1.trans hh2.symm) hkeys
    rw [hsel]
    have hmem : CH.selectedHash (CH.buildRing replicas hash seqs2) k
        ∈ (CH.buildRing replicas hash seqs2).keys :=
      CH.selectedHash_mem _ _ hcb
    have hkp : List.Perm (CH.buildRing replicas hash seqs2).keys
        ([] ++ seqs2.flatten.flatMap (CH.virtualHashes replicas hash)) :=
      CH.foldl_chAdd_keys_perm seqs2 (CH.chNew replicas hash)
    have hmem2 : CH.selectedHash (CH.buildRing replicas hash seqs2) k
        ∈ seqs2.flatten.flatMap (CH.virtualHashes replicas hash) := by
      have := hkp.mem_iff.mp hmem
      simpa using this
    obtain ⟨p, hp2, hvh⟩ := List.mem_flatMap.mp hmem2
    obtain ⟨i, hir, hhi⟩ := List.mem_map.mp hvh
    have hi : i < replicas := List.mem_range.mp hir
    have hp1 : p ∈ seqs1.flatten := hperm.mem_iff.mpr hp2
    have hmap1 : (CH.buildRing replicas hash seqs1).hashMap
        = CH.insertAll [] (seqs1.flatten.flatMap (CH.peerPairs replicas hash)) :=
      CH.foldl_chAdd_hashMap seqs1 (CH.chNew replicas hash)
    have hmap2 : (CH.buildRing replicas hash seqs2).hashMap
        = CH.insertAll [] (seqs2.flatten.flatMap (CH.peerPairs replicas hash)) :=
      CH.foldl_chAdd_hashMap seqs2 (CH.chNew replicas hash)
    have hlook1 : goLookup (CH.selectedHash (CH.buildRing replicas hash seqs2) k)
        (CH.buildRing replicas hash seqs1).hashMap = some p := by
      rw [hmap1]
      apply CH.goLookup_insertAll_const
      · intro kv hkv hk
        obtain ⟨q, hq, hkvq⟩ := List.mem_flatMap.mp hkv
        obtain ⟨j, hj, rfl⟩ := CH.mem_peerPairs hkvq
        exact (hinj j i q p hj hi hq hp1 (hk.trans hhi.symm)).2
      · exact ⟨(hash (toString i ++ p), p),
          List.mem_flatMap.mpr
            ⟨p, hp1, List.mem_map.mpr ⟨i, hir, rfl⟩⟩, hhi⟩
    have hlook2 : goLookup (CH.selectedHash (CH.buildRing replicas hash seqs2) k)
        (CH.buildRing replicas hash seqs2).hashMap = some p := by
      rw [hmap2]
      apply CH.goLookup_insertAll_const
      · intro kv hkv hk
        obtain ⟨q, hq, hkvq⟩ := List.mem_flatMap.mp hkv
        obtain ⟨j, hj, rfl⟩ := CH.mem_peerPairs hkvq
        exact (hinj j i q p hj hi (hperm.mem_iff.mpr hq) hp1
          (hk.trans hhi.symm)).2
      · exact ⟨(hash (toString i ++ p), p),
          List.mem_flatMap.mpr
            ⟨p, hp2, List.mem_map.mpr ⟨i, hir, rfl⟩⟩, hhi⟩
    rw [hlook1, hlook2]
  · rfl

/-- Concrete instantiation of the order-independence theorem: one replica,
byte-sum hash, peers added as [["A", "B"]] versus [["B"], ["A"]]. -/
theorem consistenthash_order_independent_witness :
    CH.chGet (CH.buildRing 1 (fun s => (s.data.map Char.toNat).sum)
        [["A", "B"]]) "x"
      = CH.chGet (CH.buildRing 1 (fun s => (s.data.map Char.toNat).sum)
        [["B"], ["A"]]) "x" :=
  consistenthash_order_independent 1 (fun s => (s.data.map Char.toNat).sum)
    [["A", "B"]] [["B"], ["A"]] (by decide)
    (by
      intro i j p q hi hj hp hq heq
      have hi0 : i = 0 := by omega
      have hj0 : j = 0 := by omega
      subst hi0
      subst hj0
      refine ⟨rfl, ?_⟩
      simp at hp hq
      rcases hp with rfl | rfl <;> rcases hq with rfl | rfl
      · rfl
      · exact absurd heq (by decide)
      · exact absurd heq (by decide)
      · rfl) "x"

/-! ### peers.go and http.go

A PeerPicker interface value is modelled by its PickPeer function; a
ProtoGetter interface value by an opaque type parameter G, with nil
interface values as none.  PickPeer's named results default to the Go zero
values (nil, false).
-/

/-- A PeerPicker: PickPeer(key) returns (peer ProtoGetter, ok bool). -/
structure PeerPicker (G : Type u) where
  pickPeer : String → Option G × Bool

/-- NoPeers{}: its PickPeer returns the zero values (nil, false). -/
def NoPeers (G : Type u) : PeerPicker G :=
  { pickPeer := fun _ => (none, false) }

/-- The package-level portPicker variable before any registration: nil.
(RegisterPeerPicker / RegisterPerGroupPeerPicker would set it; when neither
has run it is still the zero value.) -/
def portPickerInit (G : Type u) :
    Option (String → Option (PeerPicker G)) := none

/-- getPeers(groupName): NoPeers{} when portPicker is nil, otherwise
portPicker(groupName), substituting NoPeers{} for a nil result. -/
def getPeers {G : Type u}
    (portPicker : Option (String → Option (PeerPicker G)))
    (groupName : String) : PeerPicker G :=
  match portPicker with
  | none => NoPeers G
  | some f =>
    match f groupName with
    | none => NoPeers G
    | some pk => pk

/-- The fields of HTTPPool that PickPeer reads: the pool's own base URL,
the consistent-hash ring and the per-peer getter map (both mu-guarded). -/
structure HTTPPool (G : Type u) where
  self : String
  peers : CH.HMap
  httpGetters : List (String × G)

/-- HTTPPool.PickPeer: (nil, false) on an empty ring; otherwise look the key
up in the ring and return (httpGetters[peer], true) when the owner differs
from self, (nil, false) when the pool itself owns the key. -/
def httpPickPeer {G : Type u} (p : HTTPPool G) (key : String) :
    Option G × Bool :=
  if CH.chIsEmpty p.peers then (none, false)
  else if CH.chGet p.peers key ≠ p.self then
    (goLookup (CH.chGet p.peers key) p.httpGetters, true)
  else (none, false)

/-- C8: PickPeer(key) reports a remote owner exactly when the ring is
non-empty and assigns the key to a peer other than p.self, in which case it
returns that owner's entry of the httpGetters map; otherwise it returns
(nil, false). -/
theorem httppool_pickpeer_spec {G : Type u} (p : HTTPPool G) (key : String) :
    ((httpPickPeer p key).2 = true ↔
      CH.chIsEmpty p.peers = false ∧ CH.chGet p.peers key ≠ p.self) ∧
    ((httpPickPeer p key).2 = true →
      (httpPickPeer p key).1
        = goLookup (CH.chGet p.peers key) p.httpGetters) ∧
    ((httpPickPeer p key).2 = false → (httpPickPeer p key).1 = none) := by
  unfold httpPickPeer
  by_cases h1 : CH.chIsEmpty p.peers
  · simp [h1]
  · by_cases h2 : CH.chGet p.peers key = p.self
    · simp [h1, h2]
    · simp [h1, h2]

/-- A concrete pool (ring owner "A", self "S") on which PickPeer nominates
the remote owner's getter. -/
def httpPoolSample : HTTPPool Nat :=
  { self := "S", peers := chSample, httpGetters := [("A", 7)] }

theorem httppool_pickpeer_spec_witness :
    (httpPickPeer httpPoolSample "x").1
      = goLookup (CH.chGet httpPoolSample.peers "x")
          httpPoolSample.httpGetters :=
  (httppool_pickpeer_spec httpPoolSample "x").2.1 (by decide)

/-- C9: with no peer-picker registration installed (portPicker still nil),
getPeers returns a picker whose PickPeer answers (nil, false) — the local
process owns every key — for every group name and key. -/
theorem getpeers_unregistered_local_owner (G : Type u)
    (groupName key : String) :
    (getPeers (portPickerInit G) groupName).pickPeer key = (none, false) :=
  rfl

/-! ### sinks.go

Byte slices live in an explicit heap: a slice header is (array id, offset,
length, capacity), so aliasing and defensive copies are observable.  Go
strings are immutable and are carried as plain byte-list values.  The
protobuf library is opaque: a codec bundles abstract marshal/unmarshal
functions, with None as the error case.  setView / setSinkView are not
embedded (no claim mentions them).
-/

namespace Sinks

/-- Byte sequence (each entry one byte value). -/
abbrev Bytes := List Nat

/-- The heap: all allocated byte arrays, addressed by position. -/
structure Heap where
  arrays : List Bytes

/-- A Go byte-slice header over the heap. -/
structure GoSlice where
  arr : Nat
  off : Nat
  len : Nat
  cap : Nat

/-- A slice header Go could actually produce: backed by a live array,
window inside the array, len within cap. -/
def SliceWF (h : Heap) (s : GoSlice) : Prop :=
  s.arr < h.arrays.length ∧
    s.off + s.cap ≤ (h.arrays.getD s.arr []).length ∧ s.len ≤ s.cap

instance (h : Heap) (s : GoSlice) : Decidable (SliceWF h s) := by
  unfold SliceWF
  infer_instance

/-- The bytes a slice denotes. -/
def readSlice (h : Heap) (s : GoSlice) : Bytes :=
  ((h.arrays.getD s.arr []).drop s.off).take s.len

/-- Overwrite the contents of one heap array (the effect of writing through
any slice backed by it). -/
def writeArr (h : Heap) (a : Nat) (content : Bytes) : Heap :=
  { arrays := h.arrays.set a content }

/-- Allocate a fresh array holding the given bytes and return the slice
covering it (make + copy, or a slice literal). -/
def alloc (h : Heap) (content : Bytes) : Heap × GoSlice :=
  ({ arrays := h.arrays ++ [content] },
    { arr := h.arrays.length, off := 0,
      len := content.length, cap := content.length })

/-- cloneBytes(b): c := make([]byte, len(b)); copy(c, b); the fresh array
holds b's bytes (padded with make's zero bytes up to len(b) — empty padding
for any well-formed b). -/
def cloneBytes (h : Heap) (b : GoSlice) : Heap × GoSlice :=
  alloc h
    (readSlice h b ++ List.replicate (b.len - (readSlice h b).length) 0)

/-- copy(dst, src-bytes): write min(len(dst), len(src)) bytes into dst's
window and return that count. -/
def copyFrom (h : Heap) (dst : GoSlice) (src : Bytes) : Heap × Nat :=
  let n := min dst.len src.length
  let a := h.arrays.getD dst.arr []
  (writeArr h dst.arr (a.take dst.off ++ src.take n ++ a.drop (dst.off + n)),
    n)

/-- copy(dst, src) for two slices. -/
def copySlice (h : Heap) (dst src : GoSlice) : Heap × Nat :=
  copyFrom h dst (readSlice h src)

/-- Go reslicing s[:n] (n within cap): same array, offset and cap, length n. -/
def sliceTo (s : GoSlice) (n : Nat) : GoSlice :=
  { s with len := n }

/-- ByteView as the sink code manipulates it: the b []byte field (none for
a nil slice) and the s string field. -/
structure ByteView where
  b : Option GoSlice
  s : Bytes

/-- Modelled from the spec: the byte contents of a ByteView (byteview.go is
not part of the sources; per the spec a view's contents come from whichever
representation is populated — the buffer when b is non-nil, else the bytes
of the string). -/
def viewBytes (h : Heap) (v : ByteView) : Bytes :=
  match v.b with
  | some sl => readSlice h sl
  | none => v.s

/-- Abstract protobuf codec: Marshal may fail; Unmarshal(b, dst) either
fails or produces the new contents of dst. -/
structure ProtoCodec (M : Type u) where
  marshal : M → Option Bytes
  unmarshal : Bytes → M → Option M

/-- The five Sink implementations of sinks.go, each with the fields its
methods touch (pointer targets such as *sp and *dst are carried in the
state; protoSink's unused typ field is dropped). -/
inductive SinkState (M : Type u) where
  | stringSink (sp : Bytes) (v : ByteView)
  | byteViewSink (dst : ByteView)
  | protoSink (dst : M) (v : ByteView)
  | allocBytesSink (dst : Option GoSlice) (v : ByteView)
  | truncBytesSink (dst : Option GoSlice) (v : ByteView)

/-- The view() method: every variant returns its ByteView (byteViewSink
returns *dst) with a nil error. -/
def sinkView {M : Type u} : SinkState M → ByteView
  | .stringSink _ v => v
  | .byteViewSink dst => dst
  | .protoSink _ v => v
  | .allocBytesSink _ v => v
  | .truncBytesSink _ v => v

/-- allocBytesSink.setBytesOwned(b): nil-dst error, else *dst = cloneBytes(b)
(the second copy protecting the view) and v = ByteView{b: b, s: ""}. -/
def allocSetBytesOwned {M : Type u} (h : Heap) (dst : Option GoSlice)
    (v : ByteView) (b : GoSlice) : Heap × SinkState M × Option String :=
  match dst with
  | none => (h, .allocBytesSink none v, some "nil AllocatingByteSliceSink")
  | some _ =>
    let hc := cloneBytes h b
    (hc.1, .allocBytesSink (some hc.2) { b := some b, s := [] }, none)

/-- truncBytesSink.setBytesOwned(b): nil-dst error, else n := copy(*dst, b),
shrink *dst to n when n < len(*dst), and v = ByteView{b: b, s: ""}. -/
def truncSetBytesOwned {M : Type u} (h : Heap) (dst : Option GoSlice)
    (v : ByteView) (b : GoSlice) : Heap × SinkState M × Option String :=
  match dst with
  | none => (h, .truncBytesSink none v, some "nil TruncatingByteSliceSink")
  | some d =>
    let hn := copySlice h d b
    let d2 := if hn.2 < d.len then sliceTo d hn.2 else d
    (hn.1, .truncBytesSink (some d2) { b := some b, s := [] }, none)

/-- SetBytes(b) for every Sink variant, as dispatched through the Sink
interface. -/
def sinkSetBytes {M : Type u} (pm : ProtoCodec M) (h : Heap)
    (st : SinkState M) (b : GoSlice) : Heap × SinkState M × Option String :=
  match st with
  | .stringSink _ _ =>
    -- SetBytes(v) = SetString(string(v)): v.b = nil, v.s = v, *sp = v
    let str := readSlice h b
    (h, .stringSink str { b := none, s := str }, none)
  | .byteViewSink _ =>
    -- *dst = ByteView{b: cloneBytes(b)}
    let hc := cloneBytes h b
    (hc.1, .byteViewSink { b := some hc.2, s := [] }, none)
  | .protoSink dst v =>
    -- proto.Unmarshal(b, dst); on success v.b = cloneBytes(b), v.s = ""
    match pm.unmarshal (readSlice h b) dst with
    | none => (h, .protoSink dst v, some "unmarshal error")
    | some dst2 =>
      let hc := cloneBytes h b
      (hc.1, .protoSink dst2 { b := some hc.2, s := [] }, none)
  | .allocBytesSink dst v =>
    -- setBytesOwned(cloneBytes(b))
    let hc := cloneBytes h b
    allocSetBytesOwned hc.1 dst v hc.2
  | .truncBytesSink dst v =>
    -- setBytesOwned(cloneBytes(b))
    let hc := cloneBytes h b
    truncSetBytesOwned hc.1 dst v hc.2

/-- SetString(v) for every Sink variant. -/
def sinkSetString {M : Type u} (pm : ProtoCodec M) (h : Heap)
    (st : SinkState M) (v : Bytes) : Heap × SinkState M × Option String :=
  match st with
  | .stringSink _ _ =>
    -- v.b = nil, v.s = v, *sp = v
    (h, .stringSink v { b := none, s := v }, none)
  | .byteViewSink _ =>
    -- *dst = ByteView{s: v}
    (h, .byteViewSink { b := none, s := v }, none)
  | .protoSink dst v0 =>
    -- b := []byte(v); proto.Unmarshal(b, dst); v.b = b, v.s = ""
    let ha := alloc h v
    match pm.unmarshal v dst with
    | none => (h, .protoSink dst v0, some "unmarshal error")
    | some dst2 =>
      (ha.1, .protoSink dst2 { b := some ha.2, s := [] }, none)
  | .allocBytesSink dst v0 =>
    match dst with
    | none =>
      (h, .allocBytesSink none v0, some "nil AllocatingByteSliceSink")
    | some _ =>
      -- *dst = []byte(v); v.b = nil, v.s = v
      let ha := alloc h v
      (ha.1, .allocBytesSink (some ha.2) { b := none, s := v }, none)
  | .truncBytesSink dst v0 =>
    match dst with
    | none =>
      (h, .truncBytesSink none v0, some "nil TruncatingByteSliceSink")
    | some d =>
      -- n := copy(*dst, v); shrink; v.b = nil, v.s = v
      let hn := copyFrom h d v
      let d2 := if hn.2 < d.len then sliceTo d hn.2 else d
      (hn.1, .truncBytesSink (some d2) { b := none, s := v }, none)

/-- SetProto(m) for every Sink variant (b := proto.Marshal(m) first; a
marshal failure is returned unchanged). -/
def sinkSetProto {M : Type u} (pm : ProtoCodec M) (h : Heap)
    (st : SinkState M) (m : M) : Heap × SinkState M × Option String :=
  match pm.marshal m with
  | none =>
    (h, st, some "marshal error")
  | some bts =>
    match st with
    | .stringSink _ v =>
      -- s.v.b = b; *s.sp = string(b)  (v.s is left as it was)
      let ha := alloc h bts
      (ha.1, .stringSink bts { b := some ha.2, s := v.s }, none)
    | .byteViewSink _ =>
      -- *dst = ByteView{b: b}
      let ha := alloc h bts
      (ha.1, .byteViewSink { b := some ha.2, s := [] }, none)
    | .protoSink dst v0 =>
      -- proto.Unmarshal(b, dst); v.b = b, v.s = ""
      let ha := alloc h bts
      match pm.unmarshal bts dst with
      | none => (h, .protoSink dst v0, some "unmarshal error")
      | some dst2 =>
        (ha.1, .protoSink dst2 { b := some ha.2, s := [] }, none)
    | .allocBytesSink dst v0 =>
      let ha := alloc h bts
      allocSetBytesOwned ha.1 dst v0 ha.2
    | .truncBytesSink dst v0 =>
      let ha := alloc h bts
      truncSetBytesOwned ha.1 dst v0 ha.2

/-- Well-formedness of the destination a sink writes through: any stored
destination slice must be a live, in-bounds header. -/
def SinkWF {M : Type u} (h : Heap) : SinkState M → Prop
  | .allocBytesSink (some d) _ => SliceWF h d
  | .truncBytesSink (some d) _ => SliceWF h d
  | _ => True

theorem readSlice_length_le (h : Heap) (s : GoSlice) :
    (readSlice h s).length ≤ s.len := by
  simp [readSlice]

theorem readSlice_length_of_wf {h : Heap} {s : GoSlice} (hs : SliceWF h s) :
    (readSlice h s).length = s.len := by
  obtain ⟨h1, h2, h3⟩ := hs
  simp only [readSlice, List.length_take, List.length_drop]
  omega

theorem cloneContent_length (h : Heap) (b : GoSlice) :
    (readSlice h b
      ++ List.replicate (b.len - (readSlice h b).length) 0).length = b.len := by
  have := readSlice_length_le h b
  simp only [List.length_append, List.length_replicate]
  omega

theorem cloneContent_eq_of_wf {h : Heap} {b : GoSlice} (hb : SliceWF h b) :
    readSlice h b ++ List.replicate (b.len - (readSlice h b).length) 0
      = readSlice h b := by
  rw [readSlice_length_of_wf hb]
  simp

theorem readSlice_alloc_self (h : Heap) (c : Bytes) :
    readSlice (alloc h c).1 (alloc h c).2 = c := by
  simp only [alloc, readSlice]
  rw [List.getD_append_right _ _ _ _ (Nat.le_refl _)]
  simp

theorem readSlice_alloc_of_lt (h : Heap) (c : Bytes) (s : GoSlice)
    (hs : s.arr < h.arrays.length) :
    readSlice (alloc h c).1 s = readSlice h s := by
  simp only [alloc, readSlice]
  rw [List.getD_append _ _ _ _ hs]

theorem readSlice_writeArr_ne (h : Heap) (a : Nat) (c : Bytes) (s : GoSlice)
    (hne : s.arr ≠ a) :
    readSlice (writeArr h a c) s = readSlice h s := by
  simp only [writeArr, readSlice, List.getD_eq_getElem?_getD]
  rw [List.getElem?_set_ne (Ne.symm hne)]

theorem readSlice_cloneBytes_self (h : Heap) (b : GoSlice)
    (hb : SliceWF h b) :
    readSlice (cloneBytes h b).1 (cloneBytes h b).2 = readSlice h b := by
  unfold cloneBytes
  rw [readSlice_alloc_self, cloneContent_eq_of_wf hb]

theorem cloneBytes_arr (h : Heap) (b : GoSlice) :
    (cloneBytes h b).2.arr = h.arrays.length := rfl

theorem cloneBytes_heap_length (h : Heap) (b : GoSlice) :
    (cloneBytes h b).1.arrays.length = h.arrays.length + 1 := by
  simp [cloneBytes, alloc]

theorem readSlice_cloneBytes_other (h : Heap) (s t : GoSlice)
    (ht : t.arr < h.arrays.length) :
    readSlice (cloneBytes h s).1 t = readSlice h t := by
  unfold cloneBytes
  exact readSlice_alloc_of_lt h _ t ht

theorem readSlice_copySlice_other (h : Heap) (dst src t : GoSlice)
    (ht : t.arr ≠ dst.arr) :
    readSlice (copySlice h dst src).1 t = readSlice h t := by
  unfold copySlice copyFrom
  exact readSlice_writeArr_ne h dst.arr _ t ht

theorem copyFrom_snd (h : Heap) (dst : GoSlice) (src : Bytes) :
    (copyFrom h dst src).2 = min dst.len src.length := rfl

theorem copySlice_snd (h : Heap) (dst src : GoSlice) :
    (copySlice h dst src).2 = min dst.len (readSlice h src).length := rfl

theorem readSlice_clone_length (h : Heap) (b : GoSlice) :
    (readSlice (cloneBytes h b).1 (cloneBytes h b).2).length = b.len := by
  unfold cloneBytes
  rw [readSlice_alloc_self]
  exact cloneContent_length h b

theorem trunc_if_len (d : GoSlice) (n : Nat) :
    (if n < d.len then sliceTo d n else d).len = min n d.len := by
  by_cases hc : n < d.len <;> simp [sliceTo, hc] <;> omega

theorem trunc_if_cap (d : GoSlice) (n : Nat) :
    (if n < d.len then sliceTo d n else d).cap = d.cap := by
  by_cases hc : n < d.len <;> simp [sliceTo, hc]

theorem trunc_if_arr (d : GoSlice) (n : Nat) :
    (if n < d.len then sliceTo d n else d).arr = d.arr := by
  by_cases hc : n < d.len <;> simp [sliceTo, hc]

theorem trunc_if_off (d : GoSlice) (n : Nat) :
    (if n < d.len then sliceTo d n else d).off = d.off := by
  by_cases hc : n < d.len <;> simp [sliceTo, hc]

/-- Destination-length accessor for a truncating sink state. -/
def truncDstLen {M : Type u} : SinkState M → Option Nat
  | .truncBytesSink (some d) _ => some d.len
  | _ => none

/-- A trivial codec instance used for concrete evaluations. -/
def pmUnit : ProtoCodec Unit :=
  { marshal := fun _ => some [7], unmarshal := fun _ _ => some () }

end Sinks

/-- C2 counterexample: a destination slice with len 1 and cap 5 and a
3-byte value.  copy writes up to len(*dst), not cap: SetBytes succeeds and
leaves len(*dst) = 1, while the claim demands min(len(b), cap) = 3. -/
theorem trunc_setbytes_cap_counterexample :
    (Sinks.sinkSetBytes Sinks.pmUnit { arrays := [[9, 9, 9, 9, 9], [1, 2, 3]] }
        (.truncBytesSink (some { arr := 0, off := 0, len := 1, cap := 5 })
          { b := none, s := [] })
        { arr := 1, off := 0, len := 3, cap := 3 }).2.2 = none ∧
    Sinks.truncDstLen
      ((Sinks.sinkSetBytes Sinks.pmUnit
          { arrays := [[9, 9, 9, 9, 9], [1, 2, 3]] }
          (.truncBytesSink (some { arr := 0, off := 0, len := 1, cap := 5 })
            { b := none, s := [] })
          { arr := 1, off := 0, len := 3, cap := 3 }).2.1) = some 1 ∧
    (1 : Nat) ≠ min 3 5 := by
  refine ⟨?_, ?_, ?_⟩ <;> decide

/-- C2 amended: after TruncatingByteSliceSink(dst).SetBytes(b) succeeds, the
length of *dst equals min(len(b), len(*dst before the call)) — the length,
not the capacity, of the previous destination (copy writes up to len; the
slice is then shrunk when fewer bytes were copied).  The array, offset and
capacity of *dst are unchanged. -/
theorem trunc_setbytes_shrinks_to_len {M : Type u} (pm : Sinks.ProtoCodec M)
    (h : Sinks.Heap) (d : Sinks.GoSlice) (v : Sinks.ByteView)
    (b : Sinks.GoSlice) :
    ∃ h2 d2 v2,
      Sinks.sinkSetBytes pm h (.truncBytesSink (some d) v) b
        = (h2, .truncBytesSink (some d2) v2, none) ∧
      d2.len = min b.len d.len ∧
      d2.cap = d.cap ∧ d2.arr = d.arr ∧ d2.off = d.off := by
  have hn : (Sinks.copySlice (Sinks.cloneBytes h b).1 d
      (Sinks.cloneBytes h b).2).2 = min d.len b.len := by
    rw [Sinks.copySlice_snd, Sinks.readSlice_clone_length]
  refine ⟨_, _, _, rfl, ?_, ?_, ?_, ?_⟩
  · rw [Sinks.trunc_if_len, hn]
    omega
  · rw [Sinks.trunc_if_cap]
  · rw [Sinks.trunc_if_arr]
  · rw [Sinks.trunc_if_off]

/-- C10: for an AllocatingByteSliceSink or a TruncatingByteSliceSink whose
destination pointer is nil, SetBytes and SetString — and SetProto after a
successful marshal — return a non-nil error and leave the sink state, hence
the ByteView a later view() yields, unchanged. -/
theorem sink_nil_dst_error {M : Type u} (pm : Sinks.ProtoCodec M)
    (h : Sinks.Heap) (v w : Sinks.ByteView) (b : Sinks.GoSlice)
    (str : Sinks.Bytes) (m : M) (bts : Sinks.Bytes)
    (hm : pm.marshal m = some bts) :
    ((Sinks.sinkSetBytes pm h (.allocBytesSink none v) b).2.1
        = .allocBytesSink none v
      ∧ (Sinks.sinkSetBytes pm h (.allocBytesSink none v) b).2.2.isSome
        = true)
  ∧ (Sinks.sinkSetString pm h (.allocBytesSink none v) str
        = (h, .allocBytesSink none v, some "nil AllocatingByteSliceSink"))
  ∧ ((Sinks.sinkSetProto pm h (.allocBytesSink none v) m).2.1
        = .allocBytesSink none v
      ∧ (Sinks.sinkSetProto pm h (.allocBytesSink none v) m).2.2.isSome
        = true)
  ∧ ((Sinks.sinkSetBytes pm h (.truncBytesSink none w) b).2.1
        = .truncBytesSink none w
      ∧ (Sinks.sinkSetBytes pm h (.truncBytesSink none w) b).2.2.isSome
        = true)
  ∧ (Sinks.sinkSetString pm h (.truncBytesSink none w) str
        = (h, .truncBytesSink none w, some "nil TruncatingByteSliceSink"))
  ∧ ((Sinks.sinkSetProto pm h (.truncBytesSink none w) m).2.1
        = .truncBytesSink none w
      ∧ (Sinks.sinkSetProto pm h (.truncBytesSink none w) m).2.2.isSome
        = true) := by
  refine ⟨⟨rfl, rfl⟩, rfl, ⟨?_, ?_⟩, ⟨rfl, rfl⟩, rfl, ⟨?_, ?_⟩⟩
  · simp [Sinks.sinkSetProto, hm, Sinks.allocSetBytesOwned]
  · simp [Sinks.sinkSetProto, hm, Sinks.allocSetBytesOwned]
  · simp [Sinks.sinkSetProto, hm, Sinks.truncSetBytesOwned]
  · simp [Sinks.sinkSetProto, hm, Sinks.truncSetBytesOwned]

theorem sink_nil_dst_error_witness :
    (Sinks.sinkSetProto Sinks.pmUnit { arrays := [] }
        (.allocBytesSink none { b := none, s := [] }) ()).2.1
      = Sinks.SinkState.allocBytesSink none { b := none, s := [] } :=
  ((sink_nil_dst_error Sinks.pmUnit { arrays := [] }
      { b := none, s := [] } { b := none, s := [] }
      { arr := 0, off := 0, len := 0, cap := 0 } [] () [7] rfl).2.2.1).1

/-- C4: for every Sink variant, a successful SetBytes(b) makes view() yield
a ByteView whose byte contents equal b's bytes at call time, and the view
does not alias b: overwriting b's backing array afterwards leaves the
view's contents unchanged. -/
theorem sink_setbytes_view_defensive {M : Type u} (pm : Sinks.ProtoCodec M)
    (h : Sinks.Heap) (st : Sinks.SinkState M) (b : Sinks.GoSlice)
    (hwf : Sinks.SinkWF h st) (hb : Sinks.SliceWF h b) :
    ∀ h2 st2, Sinks.sinkSetBytes pm h st b = (h2, st2, none) →
      Sinks.viewBytes h2 (Sinks.sinkView st2) = Sinks.readSlice h b ∧
      ∀ nb, Sinks.viewBytes (Sinks.writeArr h2 b.arr nb) (Sinks.sinkView st2)
          = Sinks.viewBytes h2 (Sinks.sinkView st2) := by
  have hbne : (Sinks.cloneBytes h b).2.arr ≠ b.arr := by
    rw [Sinks.cloneBytes_arr]
    exact Ne.symm (Nat.ne_of_lt hb.1)
  cases st with
  | stringSink sp v =>
    intro h2 st2 heq
    simp only [Sinks.sinkSetBytes] at heq
    injection heq with e1 e23
    injection e23 with e2 e3
    subst e1
    subst e2
    exact ⟨rfl, fun nb => rfl⟩
  | byteViewSink dst =>
    intro h2 st2 heq
    simp only [Sinks.sinkSetBytes] at heq
    injection heq with e1 e23
    injection e23 with e2 e3
    subst e1
    subst e2
    refine ⟨Sinks.readSlice_cloneBytes_self h b hb, fun nb => ?_⟩
    show Sinks.readSlice _ _ = Sinks.readSlice _ _
    exact Sinks.readSlice_writeArr_ne _ _ _ _ hbne
  | protoSink dst v =>
    intro h2 st2 heq
    simp only [Sinks.sinkSetBytes] at heq
    cases hu : pm.unmarshal (Sinks.readSlice h b) dst with
    | none =>
      rw [hu] at heq
      simp at heq
    | some dst2 =>
      rw [hu] at heq
      injection heq with e1 e23
      injection e23 with e2 e3
      subst e1
      subst e2
      refine ⟨Sinks.readSlice_cloneBytes_self h b hb, fun nb => ?_⟩
      show Sinks.readSlice _ _ = Sinks.readSlice _ _
      exact Sinks.readSlice_writeArr_ne _ _ _ _ hbne
  | allocBytesSink dst v =>
    cases dst with
    | none =>
      intro h2 st2 heq
      simp only [Sinks.sinkSetBytes, Sinks.allocSetBytesOwned] at heq
      simp at heq
    | some d =>
      intro h2 st2 heq
      simp only [Sinks.sinkSetBytes, Sinks.allocSetBytesOwned] at heq
      injection heq with e1 e23
      injection e23 with e2 e3
      subst e1
      subst e2
      have hlt : (Sinks.cloneBytes h b).2.arr
          < (Sinks.cloneBytes h b).1.arrays.length := by
        rw [Sinks.cloneBytes_arr, Sinks.cloneBytes_heap_length]
        omega
      refine ⟨?_, fun nb => ?_⟩
      · show Sinks.readSlice _ _ = Sinks.readSlice h b
        rw [Sinks.readSlice_cloneBytes_other _ _ _ hlt]
        exact Sinks.readSlice_cloneBytes_self h b hb
      · show Sinks.readSlice _ _ = Sinks.readSlice _ _
        exact Sinks.readSlice_writeArr_ne _ _ _ _ hbne
  | truncBytesSink dst v =>
    cases dst with
    | none =>
      intro h2 st2 heq
      simp only [Sinks.sinkSetBytes, Sinks.truncSetBytesOwned] at heq
      simp at heq
    | some d =>
      intro h2 st2 heq
      have hd : Sinks.SliceWF h d := hwf
      simp only [Sinks.sinkSetBytes, Sinks.truncSetBytesOwned] at heq
      injection heq with e1 e23
      injection e23 with e2 e3
      subst e1
      subst e2
      have hdne : (Sinks.cloneBytes h b).2.arr ≠ d.arr := by
        rw [Sinks.cloneBytes_arr]
        exact Ne.symm (Nat.ne_of_lt hd.1)
      refine ⟨?_, fun nb => ?_⟩
      · show Sinks.readSlice _ _ = Sinks.readSlice h b
        rw [Sinks.readSlice_copySlice_other _ _ _ _ hdne]
        exact Sinks.readSlice_cloneBytes_self h b hb
      · show Sinks.readSlice _ _ = Sinks.readSlice _ _
        exact Sinks.readSlice_writeArr_ne _ _ _ _ hbne

/-! ### singleflight/singleflight.go

Group.Do is concurrent: it is embedded as a small-step transition relation
over interleavings of n threads, each running Do(key t, fn t) once.  A
thread's position inside Do is its phase:

  start  --lock:   acquire mu                              --> locked1
  locked1 --hit:   m[key] exists: release mu, wg.Wait      --> waiting c
  locked1 --miss:  allocate Call, wg.Add(1), m[key] = c,
                   release mu                              --> running c
  running c:       fn() returns; c.val, c.err = fn()       --> fnRet c
  fnRet c:         c.wg.Done()                             --> afterFn c
  afterFn c:       acquire mu                              --> locked2 c
  locked2 c:       delete(m, key), release mu, return      --> ret c.val
  waiting c:       wg.Wait returns (c.done), read c.val    --> ret c.val

fn's body runs while the thread sits in phase running; its result is a pure
function fnR of the thread (each thread calls fn at most once).  The (value,
error) pair is one opaque value R.  The Call records a ghost pioneer field:
the thread that created it.  Lock acquisition demands lock = false, so the
map check-and-insert is atomic exactly as the mutex makes it in Go.
-/

namespace SF

/-- singleflight.call: val/err (one opaque value, none until fn returns),
the WaitGroup barrier (done = barrier lowered), and the ghost creator. -/
structure Call (n : Nat) (R : Type u) where
  val : Option R
  done : Bool
  pioneer : Fin n

/-- Where a thread stands inside its Do call. -/
inductive Phase (R : Type u) where
  | start
  | locked1
  | waiting (c : Nat)
  | running (c : Nat)
  | fnRet (c : Nat)
  | afterFn (c : Nat)
  | locked2 (c : Nat)
  | ret (v : R)

/-- Shared state: the mutex, the inflight map m (key to call index), the
allocated Calls, and every thread's phase. -/
structure GState (n : Nat) (R : Type u) where
  lock : Bool
  m : List (String × Nat)
  calls : List (Call n R)
  phase : Fin n → Phase R

/-- One interleaved step of some thread t executing Group.Do(key t, fn t). -/
inductive Step {n : Nat} {R : Type u} (key : Fin n → String)
    (fnR : Fin n → R) : GState n R → GState n R → Prop where
  | lock1 (s : GState n R) (t : Fin n)
      (hl : s.lock = false) (hp : s.phase t = .start) :
      Step key fnR s
        { s with
          lock := true
          phase := Function.update s.phase t .locked1 }
  | follower (s : GState n R) (t : Fin n) (c : Nat)
      (hp : s.phase t = .locked1) (hm : goLookup (key t) s.m = some c) :
      Step key fnR s
        { s with
          lock := false
          phase := Function.update s.phase t (.waiting c) }
  | pioneer (s : GState n R) (t : Fin n)
      (hp : s.phase t = .locked1) (hm : goLookup (key t) s.m = none) :
      Step key fnR s
        { s with
          lock := false
          m := goInsert s.m (key t) s.calls.length
          calls := s.calls ++ [{ val := none, done := false, pioneer := t }]
          phase := Function.update s.phase t (.running s.calls.length) }
  | fnEnd (s : GState n R) (t : Fin n) (c : Nat) (call : Call n R)
      (hp : s.phase t = .running c) (hc : s.calls[c]? = some call) :
      Step key fnR s
        { s with
          calls := s.calls.set c { call with val := some (fnR t) }
          phase := Function.update s.phase t (.fnRet c) }
  | wgDone (s : GState n R) (t : Fin n) (c : Nat) (call : Call n R)
      (hp : s.phase t = .fnRet c) (hc : s.calls[c]? = some call) :
      Step key fnR s
        { s with
          calls := s.calls.set c { call with done := true }
          phase := Function.update s.phase t (.afterFn c) }
  | lock2 (s : GState n R) (t : Fin n) (c : Nat)
      (hl : s.lock = false) (hp : s.phase t = .afterFn c) :
      Step key fnR s
        { s with
          lock := true
          phase := Function.update s.phase t (.locked2 c) }
  | retPioneer (s : GState n R) (t : Fin n) (c : Nat) (call : Call n R)
      (v : R) (hp : s.phase t = .locked2 c) (hc : s.calls[c]? = some call)
      (hv : call.val = some v) :
      Step key fnR s
        { s with
          lock := false
          m := goErase s.m (key t)
          phase := Function.update s.phase t (.ret v) }
  | retFollower (s : GState n R) (t : Fin n) (c : Nat) (call : Call n R)
      (v : R) (hp : s.phase t = .waiting c) (hc : s.calls[c]? = some call)
      (hd : call.done = true) (hv : call.val = some v) :
      Step key fnR s
        { s with phase := Function.update s.phase t (.ret v) }

/-- All threads at the top of Do, no lock held, empty (nil) map, no calls. -/
def initState (n : Nat) (R : Type u) : GState n R :=
  { lock := false, m := [], calls := [], phase := fun _ => .start }

/-- Reachability from the initial state under the given keys and fn
results. -/
def Reaches {n : Nat} {R : Type u} (key : Fin n → String)
    (fnR : Fin n → R) (s : GState n R) : Prop :=
  Relation.ReflTransGen (Step key fnR) (initState n R) s

/-- Thread t currently owns call c: it created it and has neither returned
nor handed it off (it sits between the map insert and the map delete). -/
def OwnerAt {n : Nat} {R : Type u} (s : GState n R) (t : Fin n)
    (c : Nat) : Prop :=
  s.phase t = .running c ∨ s.phase t = .fnRet c ∨
    s.phase t = .afterFn c ∨ s.phase t = .locked2 c

/-- The inductive invariant of the Do protocol. -/
structure Inv {n : Nat} {R : Type u} (key : Fin n → String)
    (fnR : Fin n → R) (s : GState n R) : Prop where
  mapValid : ∀ k c, goLookup k s.m = some c → c < s.calls.length
  ownerPioneer : ∀ t c, OwnerAt s t c →
    ∀ call : Call n R, s.calls[c]? = some call → call.pioneer = t
  ownerInMap : ∀ t c, OwnerAt s t c → goLookup (key t) s.m = some c
  valPioneer : ∀ (c : Nat) (call : Call n R), s.calls[c]? = some call →
    ∀ v, call.val = some v → v = fnR call.pioneer

theorem calls_index_lt {α : Type u} {l : List α} {c : Nat} {x : α}
    (h : l[c]? = some x) : c < l.length := by
  rcases List.getElem?_eq_some_iff.mp h with ⟨hlt, -⟩
  exact hlt

theorem inv_init {n : Nat} {R : Type u} (key : Fin n → String)
    (fnR : Fin n → R) : Inv key fnR (initState n R) := by
  constructor
  · intro k c h
    simp [initState, goLookup] at h
  · intro t c how call hcall
    simp [initState] at hcall
  · intro t c how
    rcases how with h | h | h | h <;> simp [initState] at h
  · intro c call hcall v hv
    simp [initState] at hcall

/-- Steps that move one thread into a non-owner phase and touch nothing but
the lock preserve the invariant. -/
theorem inv_phase_nonowner {n : Nat} {R : Type u} {key : Fin n → String}
    {fnR : Fin n → R} {s : GState n R} (hs : Inv key fnR s) (t : Fin n)
    (ph : Phase R) (lk : Bool)
    (hno : ∀ c, ¬(ph = Phase.running c ∨ ph = .fnRet c ∨
      ph = .afterFn c ∨ ph = .locked2 c)) :
    Inv key fnR
      { s with lock := lk, phase := Function.update s.phase t ph } := by
  constructor
  · exact hs.mapValid
  · intro t2 c how call hcall
    by_cases ht : t2 = t
    · subst ht
      exact absurd (by simpa [OwnerAt, Function.update_same] using how) (hno c)
    · exact hs.ownerPioneer t2 c
        (by simpa [OwnerAt, Function.update_noteq ht] using how) call hcall
  · intro t2 c how
    by_cases ht : t2 = t
    · subst ht
      exact absurd (by simpa [OwnerAt, Function.update_same] using how) (hno c)
    · exact hs.ownerInMap t2 c
        (by simpa [OwnerAt, Function.update_noteq ht] using how)
  · exact hs.valPioneer

theorem inv_step {n : Nat} {R : Type u} {key : Fin n → String}
    {fnR : Fin n → R} {s s2 : GState n R} (hs : Inv key fnR s)
    (hstep : Step key fnR s s2) : Inv key fnR s2 := by
  cases hstep with
  | lock1 t hl hp =>
    exact inv_phase_nonowner hs t .locked1 true (by intro c; simp)
  | follower t c hp hm =>
    exact inv_phase_nonowner hs t (.waiting c) false (by intro c2; simp)
  | pioneer t hp hm =>
    constructor
    · intro k c h
      by_cases hk : k = key t
      · subst hk
        rw [goLookup_goInsert_self] at h
        injection h with h
        simp [← h]
      · rw [goLookup_goInsert_ne _ _ _ _ hk] at h
        have := hs.mapValid k c h
        simp
        omega
    · intro t2 c how call hcall
      by_cases ht : t2 = t
      · subst ht
        have hc : s.calls.length = c := by
          simpa [OwnerAt, Function.update_same] using how
        subst hc
        rw [List.getElem?_concat_length] at hcall
        injection hcall with e
        rw [← e]
      · have how2 : OwnerAt s t2 c := by
          simpa [OwnerAt, Function.update_noteq ht] using how
        have hlt : c < s.calls.length :=
          hs.mapValid _ c (hs.ownerInMap t2 c how2)
        rw [List.getElem?_append_left hlt] at hcall
        exact hs.ownerPioneer t2 c how2 call hcall
    · intro t2 c how
      by_cases ht : t2 = t
      · subst ht
        have hc : s.calls.length = c := by
          simpa [OwnerAt, Function.update_same] using how
        subst hc
        exact goLookup_goInsert_self _ _ _
      · have how2 : OwnerAt s t2 c := by
          simpa [OwnerAt, Function.update_noteq ht] using how
        have hold := hs.ownerInMap t2 c how2
        have hkne : key t2 ≠ key t := by
          intro hkk
          rw [hkk, hm] at hold
          exact Option.noConfusion hold
        rw [goLookup_goInsert_ne _ _ _ _ hkne]
        exact hold
    · intro c call hcall v hv
      rcases Nat.lt_trichotomy c s.calls.length with hlt | heq | hgt
      · rw [List.getElem?_append_left hlt] at hcall
        exact hs.valPioneer c call hcall v hv
      · subst heq
        rw [List.getElem?_concat_length] at hcall
        injection hcall with e
        rw [← e] at hv
        exact Option.noConfusion hv
      · rw [List.getElem?_eq_none (by simp; omega)] at hcall
        exact Option.noConfusion hcall
  | fnEnd t c call hp hc =>
    have hclt : c < s.calls.length := calls_index_lt hc
    have hpio : call.pioneer = t := hs.ownerPioneer t c (Or.inl hp) call hc
    constructor
    · intro k c2 h
      have := hs.mapValid k c2 h
      simpa using this
    · intro t2 c2 how call2 hcall2
      by_cases ht : t2 = t
      · subst ht
        have hc2 : c = c2 := by
          simpa [OwnerAt, Function.update_same] using how
        subst hc2
        rw [List.getElem?_set_self hclt] at hcall2
        injection hcall2 with e
        rw [← e]
        exact hpio
      · have how2 : OwnerAt s t2 c2 := by
          simpa [OwnerAt, Function.update_noteq ht] using how
        by_cases hcc : c2 = c
        · subst hcc
          rw [List.getElem?_set_self hclt] at hcall2
          injection hcall2 with e
          rw [← e]
          exact hs.ownerPioneer t2 c2 how2 call hc
        · rw [List.getElem?_set_ne fun hh => hcc hh.symm] at hcall2
          exact hs.ownerPioneer t2 c2 how2 call2 hcall2
    · intro t2 c2 how
      by_cases ht : t2 = t
      · subst ht
        have hc2 : c = c2 := by
          simpa [OwnerAt, Function.update_same] using how
        subst hc2
        exact hs.ownerInMap t2 c (Or.inl hp)
      · exact hs.ownerInMap t2 c2
          (by simpa [OwnerAt, Function.update_noteq ht] using how)
    · intro c2 call2 hcall2 v hv
      by_cases hcc : c2 = c
      · subst hcc
        rw [List.getElem?_set_self hclt] at hcall2
        injection hcall2 with e
        rw [← e] at hv ⊢
        injection hv with hv
        rw [← hv, hpio]
      · rw [List.getElem?_set_ne fun hh => hcc hh.symm] at hcall2
        exact hs.valPioneer c2 call2 hcall2 v hv
  | wgDone t c call hp hc =>
    have hclt : c < s.calls.length := calls_index_lt hc
    have hpio : call.pioneer = t :=
      hs.ownerPioneer t c (Or.inr (Or.inl hp)) call hc
    constructor
    · intro k c2 h
      have := hs.mapValid k c2 h
      simpa using this
    · intro t2 c2 how call2 hcall2
      by_cases ht : t2 = t
      · subst ht
        have hc2 : c = c2 := by
          simpa [OwnerAt, Function.update_same] using how
        subst hc2
        rw [List.getElem?_set_self hclt] at hcall2
        injection hcall2 with e
        rw [← e]
        exact hpio
      · have how2 : OwnerAt s t2 c2 := by
          simpa [OwnerAt, Function.update_noteq ht] using how
        by_cases hcc : c2 = c
        · subst hcc
          rw [List.getElem?_set_self hclt] at hcall2
          injection hcall2 with e
          rw [← e]
          exact hs.ownerPioneer t2 c2 how2 call hc
        · rw [List.getElem?_set_ne fun hh => hcc hh.symm] at hcall2
          exact hs.ownerPioneer t2 c2 how2 call2 hcall2
    · intro t2 c2 how
      by_cases ht : t2 = t
      · subst ht
        have hc2 : c = c2 := by
          simpa [OwnerAt, Function.update_same] using how
        subst hc2
        exact hs.ownerInMap t2 c (Or.inr (Or.inl hp))
      · exact hs.ownerInMap t2 c2
          (by simpa [OwnerAt, Function.update_noteq ht] using how)
    · intro c2 call2 hcall2 v hv
      by_cases hcc : c2 = c
      · subst hcc
        rw [List.getElem?_set_self hclt] at hcall2
        injection hcall2 with e
        rw [← e] at hv ⊢
        exact hs.valPioneer c2 call hc v hv
      · rw [List.getElem?_set_ne fun hh => hcc hh.symm] at hcall2
        exact hs.valPioneer c2 call2 hcall2 v hv
  | lock2 t c hl hp =>
    constructor
    · exact hs.mapValid
    · intro t2 c2 how call2 hcall2
      by_cases ht : t2 = t
      · subst ht
        have hc2 : c = c2 := by
          simpa [OwnerAt, Function.update_same] using how
        subst hc2
        exact hs.ownerPioneer t2 c (Or.inr (Or.inr (Or.inl hp))) call2 hcall2
      · exact hs.ownerPioneer t2 c2
          (by simpa [OwnerAt, Function.update_noteq ht] using how)
          call2 hcall2
    · intro t2 c2 how
      by_cases ht : t2 = t
      · subst ht
        have hc2 : c = c2 := by
          simpa [OwnerAt, Function.update_same] using how
        subst hc2
        exact hs.ownerInMap t2 c (Or.inr (Or.inr (Or.inl hp)))
      · exact hs.ownerInMap t2 c2
          (by simpa [OwnerAt, Function.update_noteq ht] using how)
    · exact hs.valPioneer
  | retPioneer t c call v hp hc hv =>
    constructor
    · intro k c2 h
      by_cases hk : k = key t
      · subst hk
        rw [goLookup_goErase_self] at h
        exact Option.noConfusion h
      · rw [goLookup_goErase_ne _ _ _ hk] at h
        exact hs.mapValid k c2 h
    · intro t2 c2 how call2 hcall2
      by_cases ht : t2 = t
      · subst ht
        simp [OwnerAt, Function.update_same] at how
      · exact hs.ownerPioneer t2 c2
          (by simpa [OwnerAt, Function.update_noteq ht] using how)
          call2 hcall2
    · intro t2 c2 how
      by_cases ht : t2 = t
      · subst ht
        simp [OwnerAt, Function.update_same] at how
      · have how2 : OwnerAt s t2 c2 := by
          simpa [OwnerAt, Function.update_noteq ht] using how
        have hold := hs.ownerInMap t2 c2 how2
        have hkne : key t2 ≠ key t := by
          intro hkk
          have holdt := hs.ownerInMap t c (Or.inr (Or.inr (Or.inr hp)))
          rw [hkk] at hold
          rw [hold] at holdt
          injection holdt with hcc
          have ht2 : call.pioneer = t2 := by
            apply hs.ownerPioneer t2 c2 how2 call
            rw [hcc]
            exact hc
          have ht1 : call.pioneer = t :=
            hs.ownerPioneer t c (Or.inr (Or.inr (Or.inr hp))) call hc
          exact ht (ht2.symm.trans ht1)
        rw [goLookup_goErase_ne _ _ _ hkne]
        exact hold
    · exact hs.valPioneer
  | retFollower t c call v hp hc hd hv =>
    exact inv_phase_nonowner hs t (.ret v) _ (by intro c2; simp)

theorem inv_reaches {n : Nat} {R : Type u} {key : Fin n → String}
    {fnR : Fin n → R} {s : GState n R} (h : Reaches key fnR s) :
    Inv key fnR s := by
  induction h with
  | refl => exact inv_init key fnR
  | tail hsteps hstep ih => exact inv_step ih hstep

/-- A thread that was not yet returned and is returned after one step got
there either by the follower path (wg.Wait on a completed call, reading its
val) or by the pioneer path (from locked2, reading its own call's val). -/
theorem step_ret_inversion {n : Nat} {R : Type u} {key : Fin n → String}
    {fnR : Fin n → R} {s s2 : GState n R} (hstep : Step key fnR s s2)
    (t : Fin n) (v : R) (hret : s2.phase t = .ret v)
    (hnot : ∀ w, s.phase t ≠ .ret w) :
    (∃ c call, s.phase t = .waiting c ∧ s.calls[c]? = some call ∧
      call.done = true ∧ call.val = some v) ∨
    (∃ c call, s.phase t = .locked2 c ∧ s.calls[c]? = some call ∧
      call.val = some v) := by
  cases hstep with
  | lock1 t3 hl hp =>
    by_cases htt : t3 = t
    · subst htt
      simp only [Function.update_same] at hret
      exact Phase.noConfusion hret
    · simp only [Function.update_noteq (show t ≠ t3 from fun hh => htt hh.symm)] at hret
      exact absurd hret (hnot v)
  | follower t3 c3 hp hm =>
    by_cases htt : t3 = t
    · subst htt
      simp only [Function.update_same] at hret
      exact Phase.noConfusion hret
    · simp only [Function.update_noteq (show t ≠ t3 from fun hh => htt hh.symm)] at hret
      exact absurd hret (hnot v)
  | pioneer t3 hp hm =>
    by_cases htt : t3 = t
    · subst htt
      simp only [Function.update_same] at hret
      exact Phase.noConfusion hret
    · simp only [Function.update_noteq (show t ≠ t3 from fun hh => htt hh.symm)] at hret
      exact absurd hret (hnot v)
  | fnEnd t3 c3 call3 hp hc =>
    by_cases htt : t3 = t
    · subst htt
      simp only [Function.update_same] at hret
      exact Phase.noConfusion hret
    · simp only [Function.update_noteq (show t ≠ t3 from fun hh => htt hh.symm)] at hret
      exact absurd hret (hnot v)
  | wgDone t3 c3 call3 hp hc =>
    by_cases htt : t3 = t
    · subst htt
      simp only [Function.update_same] at hret
      exact Phase.noConfusion hret
    · simp only [Function.update_noteq (show t ≠ t3 from fun hh => htt hh.symm)] at hret
      exact absurd hret (hnot v)
  | lock2 t3 c3 hl hp =>
    by_cases htt : t3 = t
    · subst htt
      simp only [Function.update_same] at hret
      exact Phase.noConfusion hret
    · simp only [Function.update_noteq (show t ≠ t3 from fun hh => htt hh.symm)] at hret
      exact absurd hret (hnot v)
  | retPioneer t3 c3 call3 v3 hp hc hv =>
    by_cases htt : t3 = t
    · subst htt
      simp only [Function.update_same] at hret
      injection hret with he
      exact Or.inr ⟨c3, call3, hp, hc, he ▸ hv⟩
    · simp only [Function.update_noteq (show t ≠ t3 from fun hh => htt hh.symm)] at hret
      exact absurd hret (hnot v)
  | retFollower t3 c3 call3 v3 hp hc hd hv =>
    by_cases htt : t3 = t
    · subst htt
      simp only [Function.update_same] at hret
      injection hret with he
      exact Or.inl ⟨c3, call3, hp, hc, hd, he ▸ hv⟩
    · simp only [Function.update_noteq (show t ≠ t3 from fun hh => htt hh.symm)] at hret
      exact absurd hret (hnot v)

/-- Is a thread currently inside fn()? -/
def isRunning {R : Type u} : Phase R → Bool
  | .running _ => true
  | _ => false

/-- Constant key assignment for the one-thread instance. -/
def oneK (key0 : String) : Fin 1 → String := fun _ => key0

/-- Constant fn-result assignment for the one-thread instance. -/
def oneF {R : Type u} (r0 : R) : Fin 1 → R := fun _ => r0

/-- The one-thread run of Do on an empty map: the seven states the unique
schedule passes through. -/
def T0 (R : Type u) : GState 1 R := initState 1 R

def T1 (R : Type u) : GState 1 R :=
  { T0 R with
    lock := true
    phase := Function.update (T0 R).phase 0 .locked1 }

def T2 (key0 : String) (R : Type u) : GState 1 R :=
  { T1 R with
    lock := false
    m := goInsert (T1 R).m key0 (T1 R).calls.length
    calls := (T1 R).calls ++ [{ val := none, done := false, pioneer := 0 }]
    phase := Function.update (T1 R).phase 0 (.running (T1 R).calls.length) }

def T3 {R : Type u} (key0 : String) (r0 : R) : GState 1 R :=
  { T2 key0 R with
    calls := (T2 key0 R).calls.set 0
      { val := some r0, done := false, pioneer := 0 }
    phase := Function.update (T2 key0 R).phase 0 (.fnRet 0) }

def T4 {R : Type u} (key0 : String) (r0 : R) : GState 1 R :=
  { T3 key0 r0 with
    calls := (T3 key0 r0).calls.set 0
      { val := some r0, done := true, pioneer := 0 }
    phase := Function.update (T3 key0 r0).phase 0 (.afterFn 0) }

def T5 {R : Type u} (key0 : String) (r0 : R) : GState 1 R :=
  { T4 key0 r0 with
    lock := true
    phase := Function.update (T4 key0 r0).phase 0 (.locked2 0) }

def T6 {R : Type u} (key0 : String) (r0 : R) : GState 1 R :=
  { T5 key0 r0 with
    lock := false
    m := goErase (T5 key0 r0).m key0
    phase := Function.update (T5 key0 r0).phase 0 (.ret r0) }

/-- The enabled transition of the single thread, as a function: with one
thread the Do protocol is a deterministic program. -/
def stepFn {R : Type u} (key : Fin 1 → String) (fnR : Fin 1 → R)
    (s : GState 1 R) : Option (GState 1 R) :=
  match s.phase 0 with
  | .start =>
    if s.lock = false then
      some { s with
        lock := true
        phase := Function.update s.phase 0 .locked1 }
    else none
  | .locked1 =>
    match goLookup (key 0) s.m with
    | some c =>
      some { s with
        lock := false
        phase := Function.update s.phase 0 (.waiting c) }
    | none =>
      some { s with
        lock := false
        m := goInsert s.m (key 0) s.calls.length
        calls := s.calls ++ [{ val := none, done := false, pioneer := 0 }]
        phase := Function.update s.phase 0 (.running s.calls.length) }
  | .waiting c =>
    match s.calls[c]? with
    | some call =>
      if call.done then
        match call.val with
        | some v =>
          some { s with phase := Function.update s.phase 0 (.ret v) }
        | none => none
      else none
    | none => none
  | .running c =>
    match s.calls[c]? with
    | some call =>
      some { s with
        calls := s.calls.set c { call with val := some (fnR 0) }
        phase := Function.update s.phase 0 (.fnRet c) }
    | none => none
  | .fnRet c =>
    match s.calls[c]? with
    | some call =>
      some { s with
        calls := s.calls.set c { call with done := true }
        phase := Function.update s.phase 0 (.afterFn c) }
    | none => none
  | .afterFn c =>
    if s.lock = false then
      some { s with
        lock := true
        phase := Function.update s.phase 0 (.locked2 c) }
    else none
  | .locked2 c =>
    match s.calls[c]? with
    | some call =>
      match call.val with
      | some v =>
        some { s with
          lock := false
          m := goErase s.m (key 0)
          phase := Function.update s.phase 0 (.ret v) }
      | none => none
    | none => none
  | .ret _ => none

theorem step_eq_stepFn {R : Type u} {key : Fin 1 → String}
    {fnR : Fin 1 → R} {s s2 : GState 1 R} (h : Step key fnR s s2) :
    stepFn key fnR s = some s2 := by
  cases h with
  | lock1 t hl hp =>
    obtain rfl : t = 0 := Fin.fin_one_eq_zero t
    simp [stepFn, hp, hl]
  | follower t c hp hm =>
    obtain rfl : t = 0 := Fin.fin_one_eq_zero t
    simp [stepFn, hp, hm]
  | pioneer t hp hm =>
    obtain rfl : t = 0 := Fin.fin_one_eq_zero t
    simp [stepFn, hp, hm]
  | fnEnd t c call hp hc =>
    obtain rfl : t = 0 := Fin.fin_one_eq_zero t
    simp [stepFn, hp, hc]
  | wgDone t c call hp hc =>
    obtain rfl : t = 0 := Fin.fin_one_eq_zero t
    simp [stepFn, hp, hc]
  | lock2 t c hl hp =>
    obtain rfl : t = 0 := Fin.fin_one_eq_zero t
    simp [stepFn, hp, hl]
  | retPioneer t c call v hp hc hv =>
    obtain rfl : t = 0 := Fin.fin_one_eq_zero t
    simp [stepFn, hp, hc, hv]
  | retFollower t c call v hp hc hd hv =>
    obtain rfl : t = 0 := Fin.fin_one_eq_zero t
    simp [stepFn, hp, hc, hd, hv]

/-- One thread: Do is deterministic. -/
theorem step_deterministic_one {R : Type u} {key : Fin 1 → String}
    {fnR : Fin 1 → R} {s s2 s3 : GState 1 R}
    (h2 : Step key fnR s s2) (h3 : Step key fnR s s3) : s2 = s3 :=
  Option.some.inj ((step_eq_stepFn h2).symm.trans (step_eq_stepFn h3))

end SF

theorem sink_setbytes_view_defensive_witness :
    Sinks.viewBytes { arrays := [[1, 2]] }
        (Sinks.sinkView
          (Sinks.SinkState.stringSink [1, 2] { b := none, s := [1, 2] }
            : Sinks.SinkState Unit))
      = Sinks.readSlice { arrays := [[1, 2]] }
          { arr := 0, off := 0, len := 2, cap := 2 } :=
  (sink_setbytes_view_defensive Sinks.pmUnit { arrays := [[1, 2]] }
    (.stringSink [] { b := none, s := [] })
    { arr := 0, off := 0, len := 2, cap := 2 }
    trivial (by decide)
    { arrays := [[1, 2]] }
    (.stringSink [1, 2] { b := none, s := [1, 2] }) rfl).1

/-- C1: in every reachable state of the interleaved Do protocol,
(i) at most one thread per key is executing fn;
(ii) a follower that was waiting on a call and returns by the next step
returns exactly the value fn produced for that call's pioneer;
(iii) the pioneer itself returns that same value (its own fn result);
(iv) the ghost pioneer of a call is the unique thread between the call's
map insert and map delete. -/
theorem singleflight_do_dedup {n : Nat} {R : Type u}
    (key : Fin n → String) (fnR : Fin n → R) (s : SF.GState n R)
    (hs : SF.Reaches key fnR s) :
    (∀ t1 t2 c1 c2, s.phase t1 = .running c1 → s.phase t2 = .running c2 →
      key t1 = key t2 → t1 = t2)
  ∧ (∀ (t : Fin n) (c : Nat) (call : SF.Call n R) (v : R)
      (s2 : SF.GState n R),
      s.phase t = .waiting c → s.calls[c]? = some call →
      SF.Step key fnR s s2 → s2.phase t = .ret v → v = fnR call.pioneer)
  ∧ (∀ (t : Fin n) (c : Nat) (call : SF.Call n R) (v : R)
      (s2 : SF.GState n R),
      s.phase t = .locked2 c → s.calls[c]? = some call →
      SF.Step key fnR s s2 → s2.phase t = .ret v →
      v = fnR call.pioneer ∧ call.pioneer = t)
  ∧ (∀ (t : Fin n) (c : Nat) (call : SF.Call n R),
      SF.OwnerAt s t c → s.calls[c]? = some call → call.pioneer = t) := by
  have hinv := SF.inv_reaches hs
  refine ⟨?_, ?_, ?_, ?_⟩
  · intro t1 t2 c1 c2 h1 h2 hk
    have hm1 := hinv.ownerInMap t1 c1 (Or.inl h1)
    have hm2 := hinv.ownerInMap t2 c2 (Or.inl h2)
    rw [hk, hm2] at hm1
    injection hm1 with hcc
    subst hcc
    have hlt : c2 < s.calls.length := hinv.mapValid _ _ hm2
    obtain ⟨call2, hcall⟩ : ∃ call2, s.calls[c2]? = some call2 :=
      ⟨_, List.getElem?_eq_getElem hlt⟩
    have p1 := hinv.ownerPioneer t1 c2 (Or.inl h1) _ hcall
    have p2 := hinv.ownerPioneer t2 c2 (Or.inl h2) _ hcall
    rw [← p1]
    exact p2
  · intro t c call v s2 hw hcall hstep hret
    have hnot : ∀ w, s.phase t ≠ .ret w := by
      intro w hcon
      rw [hw] at hcon
      exact SF.Phase.noConfusion hcon
    rcases SF.step_ret_inversion hstep t v hret hnot with
      ⟨c3, call3, hph, hc3, hd3, hv3⟩ | ⟨c3, call3, hph, hc3, hv3⟩
    · rw [hw] at hph
      injection hph with hcc
      subst hcc
      rw [hcall] at hc3
      injection hc3 with he
      rw [← he] at hv3
      exact hinv.valPioneer c call hcall v hv3
    · rw [hw] at hph
      exact SF.Phase.noConfusion hph
  · intro t c call v s2 hw hcall hstep hret
    have hnot : ∀ w, s.phase t ≠ .ret w := by
      intro w hcon
      rw [hw] at hcon
      exact SF.Phase.noConfusion hcon
    rcases SF.step_ret_inversion hstep t v hret hnot with
      ⟨c3, call3, hph, hc3, hd3, hv3⟩ | ⟨c3, call3, hph, hc3, hv3⟩
    · rw [hw] at hph
      exact SF.Phase.noConfusion hph
    · rw [hw] at hph
      injection hph with hcc
      subst hcc
      rw [hcall] at hc3
      injection hc3 with he
      rw [← he] at hv3
      refine ⟨hinv.valPioneer c call hcall v hv3, ?_⟩
      exact hinv.ownerPioneer t c (Or.inr (Or.inr (Or.inr hw))) call hcall
  · intro t c call how hcall
    exact hinv.ownerPioneer t c how call hcall

theorem sfStep01 {R : Type u} (key0 : String) (r0 : R) :
    SF.Step (SF.oneK key0) (SF.oneF r0) (SF.T0 R) (SF.T1 R) :=
  SF.Step.lock1 (SF.T0 R) 0 rfl rfl

theorem sfStep12 {R : Type u} (key0 : String) (r0 : R) :
    SF.Step (SF.oneK key0) (SF.oneF r0) (SF.T1 R) (SF.T2 key0 R) :=
  SF.Step.pioneer (SF.T1 R) 0 rfl rfl

theorem sfStep23 {R : Type u} (key0 : String) (r0 : R) :
    SF.Step (SF.oneK key0) (SF.oneF r0) (SF.T2 key0 R) (SF.T3 key0 r0) :=
  SF.Step.fnEnd (SF.T2 key0 R) 0 0
    { val := none, done := false, pioneer := 0 } rfl rfl

theorem sfStep34 {R : Type u} (key0 : String) (r0 : R) :
    SF.Step (SF.oneK key0) (SF.oneF r0) (SF.T3 key0 r0) (SF.T4 key0 r0) :=
  SF.Step.wgDone (SF.T3 key0 r0) 0 0
    { val := some r0, done := false, pioneer := 0 } rfl rfl

theorem sfStep45 {R : Type u} (key0 : String) (r0 : R) :
    SF.Step (SF.oneK key0) (SF.oneF r0) (SF.T4 key0 r0) (SF.T5 key0 r0) :=
  SF.Step.lock2 (SF.T4 key0 r0) 0 0 rfl rfl

theorem sfStep56 {R : Type u} (key0 : String) (r0 : R) :
    SF.Step (SF.oneK key0) (SF.oneF r0) (SF.T5 key0 r0) (SF.T6 key0 r0) :=
  SF.Step.retPioneer (SF.T5 key0 r0) 0 0
    { val := some r0, done := true, pioneer := 0 } r0 rfl rfl rfl

theorem sfReachT6 {R : Type u} (key0 : String) (r0 : R) :
    SF.Reaches (SF.oneK key0) (SF.oneF r0) (SF.T6 key0 r0) :=
  Relation.ReflTransGen.tail
    (Relation.ReflTransGen.tail
      (Relation.ReflTransGen.tail
        (Relation.ReflTransGen.tail
          (Relation.ReflTransGen.tail
            (Relation.ReflTransGen.tail Relation.ReflTransGen.refl
              (sfStep01 key0 r0))
            (sfStep12 key0 r0))
          (sfStep23 key0 r0))
        (sfStep34 key0 r0))
      (sfStep45 key0 r0))
    (sfStep56 key0 r0)

theorem singleflight_do_dedup_witness :
    ({ val := none, done := false, pioneer := 0 } : SF.Call 1 Nat).pioneer
      = 0 := by
  have hreach : SF.Reaches (SF.oneK "k") (SF.oneF (0 : Nat))
      (SF.T2 "k" Nat) :=
    Relation.ReflTransGen.tail
      (Relation.ReflTransGen.tail Relation.ReflTransGen.refl
        (sfStep01 "k" 0))
      (sfStep12 "k" 0)
  exact (singleflight_do_dedup (SF.oneK "k") (SF.oneF 0) (SF.T2 "k" Nat)
    hreach).2.2.2 0 0 { val := none, done := false, pioneer := 0 }
    (Or.inl rfl) rfl

/-- C7: with a single caller and an empty inflight map, Do(key, fn) runs
the unique schedule start, locked1, running, fnRet, afterFn, locked2, ret:
it finds no in-flight entry, executes fn in exactly one phase of the run,
returns exactly fn's result, and leaves the inflight map without an entry
for the key.  The one-thread step relation is deterministic, so this run is
the only behavior. -/
theorem singleflight_do_miss_path {R : Type u} (key0 : String) (r0 : R) :
    goLookup key0 (SF.T0 R).m = none
  ∧ SF.Step (SF.oneK key0) (SF.oneF r0) (SF.T0 R) (SF.T1 R)
  ∧ SF.Step (SF.oneK key0) (SF.oneF r0) (SF.T1 R) (SF.T2 key0 R)
  ∧ SF.Step (SF.oneK key0) (SF.oneF r0) (SF.T2 key0 R) (SF.T3 key0 r0)
  ∧ SF.Step (SF.oneK key0) (SF.oneF r0) (SF.T3 key0 r0) (SF.T4 key0 r0)
  ∧ SF.Step (SF.oneK key0) (SF.oneF r0) (SF.T4 key0 r0) (SF.T5 key0 r0)
  ∧ SF.Step (SF.oneK key0) (SF.oneF r0) (SF.T5 key0 r0) (SF.T6 key0 r0)
  ∧ SF.Reaches (SF.oneK key0) (SF.oneF r0) (SF.T6 key0 r0)
  ∧ (SF.T6 key0 r0).phase 0 = .ret r0
  ∧ goLookup key0 (SF.T6 key0 r0).m = none
  ∧ ([SF.T0 R, SF.T1 R, SF.T2 key0 R, SF.T3 key0 r0, SF.T4 key0 r0,
      SF.T5 key0 r0, SF.T6 key0 r0].countP
        fun st => SF.isRunning (st.phase 0)) = 1
  ∧ (∀ s s2 s3, SF.Step (SF.oneK key0) (SF.oneF r0) s s2 →
      SF.Step (SF.oneK key0) (SF.oneF r0) s s3 → s2 = s3) := by
  refine ⟨rfl, sfStep01 key0 r0, sfStep12 key0 r0, sfStep23 key0 r0,
    sfStep34 key0 r0, sfStep45 key0 r0, sfStep56 key0 r0,
    sfReachT6 key0 r0, rfl, ?_, rfl, ?_⟩
  · simp [SF.T6, SF.T5, SF.T4, SF.T3, SF.T2, SF.T1, SF.T0, SF.initState,
      goInsert, goErase, goLookup]
  · intro s s2 s3 h2 h3
    exact SF.step_deterministic_one h2 h3

theorem singleflight_do_miss_path_witness :
    goLookup "k" (SF.T6 "k" (0 : Nat)).m = none :=
  (singleflight_do_miss_path "k" (0 : Nat)).2.2.2.2.2.2.2.2.2.1

end Groupcache
